import Mathlib

/-!
Shallow embedding of the budget allocation engine of `src/streamlit_app.py`:
the functions `generate_auto_budget`, `apply_vacancy_to_budget` and
`auto_fill_budget`.  Monetary values and percentages are modelled as
rationals; a Python `dict` of category allocations is modelled as a list of
key/value pairs; a pandas data frame holding a budget table is modelled as a
list of rows, where a cell that may be missing or non numeric is an
`Option ℚ` (`none` standing for a missing or unparsable value).
-/

/-- Rounding of a rational to the nearest integer with ties going to the even
integer, the behaviour of Python `round` on a tie. -/
def bankersRound (q : ℚ) : ℤ :=
  if q - ⌊q⌋ = 1 / 2 then (if 2 ∣ ⌊q⌋ then ⌊q⌋ else ⌊q⌋ + 1) else round q

/-- Python `round(x, 2)`: rounding to two decimal places. -/
def round2 (q : ℚ) : ℚ := (bankersRound (100 * q) : ℚ) / 100

/-- The all-zero allocation `{cat: 0 for cat in category_allocations}` used by
the degenerate branches of `generate_auto_budget`. -/
def zeroAlloc (m : List (String × ℚ)) : List (String × ℚ) :=
  m.map (fun p => (p.1, 0))

/-- Embedding of `generate_auto_budget` (src/streamlit_app.py lines 166-188).
`check_amount` is `none` when the Python argument is `None`. -/
def generate_auto_budget (check_amount : Option ℚ)
    (category_allocations : List (String × ℚ))
    (vacancy_mode : Bool) (vacancy_pct : ℚ) : List (String × ℚ) :=
  match check_amount with
  | none => zeroAlloc category_allocations
  | some a =>
    if a ≤ 0 then zeroAlloc category_allocations
    else
      let a2 := if vacancy_mode then a * (100 - vacancy_pct) / 100 else a
      let total_pct := (category_allocations.map Prod.snd).sum
      if total_pct ≤ 0 then zeroAlloc category_allocations
      else category_allocations.map (fun p => (p.1, round2 (a2 * (p.2 / total_pct))))

/-- Row of a budget table data frame.  `checks` are the four per-deposit cells
Check1..Check4; a cell is `none` when it is missing or non numeric.  The
Monthly_Total column may likewise hold a non numeric value in a raw frame. -/
@[ext]
structure BRow where
  category : String
  checks : Fin 4 → Option ℚ
  monthlyTotal : Option ℚ
deriving DecidableEq

/-- Numeric coercion performed by `pd.to_numeric(..., errors="coerce").fillna(0)`:
a missing or non numeric cell becomes 0. -/
def toNum (x : Option ℚ) : ℚ := x.getD 0

/-- Embedding of `apply_vacancy_to_budget` (src/streamlit_app.py lines 190-201):
the source copies the frame, multiplies every per-deposit column (coerced to a
number, 0 on failure) by `(100 - vacancy_pct) / 100`, then recomputes the
Monthly_Total column as the row sum of the four adjusted columns. -/
def apply_vacancy_to_budget (budget_df : List BRow) (vacancy_pct : ℚ) : List BRow :=
  let adj_factor := (100 - vacancy_pct) / 100
  budget_df.map (fun r =>
    { category := r.category
      checks := fun d => some (toNum (r.checks d) * adj_factor)
      monthlyTotal := some (∑ d : Fin 4, toNum (r.checks d) * adj_factor) })

/-- The category column of a budget data frame, `list(df["Category"])`. -/
def catsOf (df : List BRow) : List String := df.map (fun r => r.category)

/-- Effective weight of a category, `float(auto_pct_map.get(c, 0))`: the weight
stored in the allocation map, or 0 when the category is absent. -/
def effW (apm : List (String × ℚ)) (c : String) : ℚ := (apm.lookup c).getD 0

/-- Total of the effective weights, `sum(pct_map.values())`.  The Python dict
comprehension `{c: ... for c in cats}` keeps one entry per distinct category,
so the sum ranges over the deduplicated category list. -/
def totalPctOf (apm : List (String × ℚ)) (df : List BRow) : ℚ :=
  (((catsOf df).dedup).map (effW apm)).sum

/-- Vacancy multiplier `(100 - vacancy_pct) / 100.0 if vacancy_mode else 1.0`. -/
def adjFactor (vacancy_mode : Bool) (vacancy_pct : ℚ) : ℚ :=
  if vacancy_mode then (100 - vacancy_pct) / 100 else 1

/-- Embedding of `auto_fill_budget` (src/streamlit_app.py lines 203-238).
`check_inputs` is the 4-element list `[c1, c2, c3, c4]`.  When the total
effective weight is nonpositive every check cell and every Monthly_Total is
set to 0; otherwise the weights are rescaled by `100 / total_pct` and row
`r` gets `check_inputs[d] * (pct_map[cat] / 100) * adj` in check column `d`,
with Monthly_Total recomputed as the row sum of the four check columns. -/
def auto_fill_budget (df : List BRow) (check_inputs : Fin 4 → ℚ)
    (auto_pct_map : List (String × ℚ))
    (vacancy_mode : Bool) (vacancy_pct : ℚ) : List BRow :=
  let total_pct := totalPctOf auto_pct_map df
  if total_pct ≤ 0 then
    df.map (fun r =>
      { category := r.category
        checks := fun _ => some 0
        monthlyTotal := some 0 })
  else
    let scale := 100 / total_pct
    df.map (fun r =>
      let pct := effW auto_pct_map r.category * scale / 100
      { category := r.category
        checks := fun d => some (check_inputs d * pct * adjFactor vacancy_mode vacancy_pct)
        monthlyTotal := some (∑ d : Fin 4,
          check_inputs d * pct * adjFactor vacancy_mode vacancy_pct) })

/-- Final state of the data frame argument of `apply_vacancy_to_budget`: the
source copies the frame first (`adj_df = budget_df.copy()`) and writes only to
the copy, so the caller's frame is unchanged after the call. -/
def apply_vacancy_to_budget_argAfter (budget_df : List BRow) (_vacancy_pct : ℚ) : List BRow :=
  budget_df

/-- Final state of the data frame argument of `auto_fill_budget`: the source
writes into the argument in place (`df[col] = 0.0`, `df.at[idx, ...] = ...`)
and returns that same frame, so after the call the caller's frame holds the
returned table. -/
def auto_fill_budget_argAfter (df : List BRow) (check_inputs : Fin 4 → ℚ)
    (auto_pct_map : List (String × ℚ))
    (vacancy_mode : Bool) (vacancy_pct : ℚ) : List BRow :=
  auto_fill_budget df check_inputs auto_pct_map vacancy_mode vacancy_pct

/-- Data model invariant of a budget table: every per-deposit cell is numeric
and every Monthly_Total is the sum of the row's four per-deposit amounts. -/
def BudgetInvariant (df : List BRow) : Prop :=
  ∀ r ∈ df, (∀ d : Fin 4, (r.checks d).isSome) ∧
    r.monthlyTotal = some (∑ d : Fin 4, toNum (r.checks d))

instance (df : List BRow) : Decidable (BudgetInvariant df) := by
  unfold BudgetInvariant
  infer_instance

lemma abs_bankersRound_sub (q : ℚ) : |(bankersRound q : ℚ) - q| ≤ 1 / 2 := by
  unfold bankersRound
  by_cases h : q - ⌊q⌋ = 1 / 2
  · rw [if_pos h]
    by_cases h2 : 2 ∣ ⌊q⌋
    · rw [if_pos h2]
      have hv : ((⌊q⌋ : ℚ)) - q = -(1 / 2) := by linarith
      rw [hv]
      norm_num [abs_le]
    · rw [if_neg h2]
      have hv : (((⌊q⌋ + 1 : ℤ)) : ℚ) - q = 1 / 2 := by push_cast; linarith
      rw [hv]
      norm_num [abs_le]
  · rw [if_neg h, abs_sub_comm]
    exact abs_sub_round q

lemma abs_round2_sub (q : ℚ) : |round2 q - q| ≤ 1 / 200 := by
  have h := abs_bankersRound_sub (100 * q)
  unfold round2
  have : (bankersRound (100 * q) : ℚ) / 100 - q = ((bankersRound (100 * q) : ℚ) - 100 * q) / 100 := by
    ring
  rw [this, abs_div]
  rw [abs_of_pos (by norm_num : (0 : ℚ) < 100)]
  linarith

lemma bankersRound_intCast (z : ℤ) : bankersRound (z : ℚ) = z := by
  unfold bankersRound
  rw [Int.floor_intCast]
  simp [round_intCast]

lemma round2_round2 (q : ℚ) : round2 (round2 q) = round2 q := by
  unfold round2
  rw [mul_div_cancel₀ _ (by norm_num : (100 : ℚ) ≠ 0)]
  rw [bankersRound_intCast]

lemma round2_zero : round2 0 = 0 := by
  have h := bankersRound_intCast 0
  push_cast at h
  unfold round2
  rw [mul_zero, h]
  norm_num

lemma abs_sum_map_round2_sub (l : List ℚ) :
    |(l.map round2).sum - l.sum| ≤ l.length * (1 / 200) := by
  induction l with
  | nil => simp
  | cons x xs ih =>
    simp only [List.map_cons, List.sum_cons, List.length_cons]
    have h1 := abs_round2_sub x
    have h2 : round2 x + (xs.map round2).sum - (x + xs.sum) =
        (round2 x - x) + ((xs.map round2).sum - xs.sum) := by ring
    rw [h2]
    refine le_trans (abs_add _ _) ?_
    push_cast
    ring_nf
    ring_nf at ih
    linarith

lemma zeroAlloc_map_fst (m : List (String × ℚ)) :
    (zeroAlloc m).map Prod.fst = m.map Prod.fst := by
  simp [zeroAlloc, List.map_map, Function.comp]

lemma auto_fill_budget_pos_eq (df : List BRow) (ck : Fin 4 → ℚ)
    (apm : List (String × ℚ)) (vm : Bool) (vp : ℚ)
    (hT : 0 < totalPctOf apm df) :
    auto_fill_budget df ck apm vm vp = df.map (fun r =>
      { category := r.category
        checks := fun d => some (ck d *
          (effW apm r.category * (100 / totalPctOf apm df) / 100) * adjFactor vm vp)
        monthlyTotal := some (∑ d : Fin 4, ck d *
          (effW apm r.category * (100 / totalPctOf apm df) / 100) * adjFactor vm vp) }) := by
  simp [auto_fill_budget, not_le.mpr hT]

/-- C2: degenerate inputs of the allocator.  When the check amount is `None`
or nonpositive, or when the weights of the allocation map sum to a
nonpositive value, `generate_auto_budget` returns the input map with every
category set to 0 and never fails; in particular at amount 0 and -5 for any
map, on the empty map, and on an all-zero two-category map. -/
theorem generate_auto_budget_degenerate :
    (∀ (m : List (String × ℚ)) (vm : Bool) (vp : ℚ),
      generate_auto_budget none m vm vp = zeroAlloc m)
    ∧ (∀ (a : ℚ) (m : List (String × ℚ)) (vm : Bool) (vp : ℚ), a ≤ 0 →
      generate_auto_budget (some a) m vm vp = zeroAlloc m)
    ∧ (∀ (a : Option ℚ) (m : List (String × ℚ)) (vm : Bool) (vp : ℚ),
      (m.map Prod.snd).sum ≤ 0 →
      generate_auto_budget a m vm vp = zeroAlloc m)
    ∧ (∀ m : List (String × ℚ), generate_auto_budget (some 0) m false 0 = zeroAlloc m)
    ∧ (∀ m : List (String × ℚ), generate_auto_budget (some (-5)) m false 0 = zeroAlloc m)
    ∧ generate_auto_budget (some 100) [] false 0 = []
    ∧ generate_auto_budget (some 100) [("A", 0), ("B", 0)] false 0 = [("A", 0), ("B", 0)] := by
  refine ⟨fun m vm vp => rfl, fun a m vm vp ha => by simp [generate_auto_budget, ha],
    fun a m vm vp hs => ?_, fun m => by simp [generate_auto_budget],
    fun m => by norm_num [generate_auto_budget], by simp [generate_auto_budget, zeroAlloc],
    by norm_num [generate_auto_budget, zeroAlloc]⟩
  match a with
  | none => rfl
  | some a =>
    by_cases ha : a ≤ 0
    · simp [generate_auto_budget, ha]
    · simp [generate_auto_budget, ha, hs]

/-- C2 witness: the theorem applied at the amount -3 and a one-category map. -/
theorem generate_auto_budget_degenerate_witness :
    generate_auto_budget (some (-3)) [("A", 5)] false 20 = [("A", 0)] := by
  rw [generate_auto_budget_degenerate.2.1 (-3) [("A", 5)] false 20 (by norm_num)]
  simp [zeroAlloc]

/-- C3: positive branch of the allocator.  For a positive amount and a map of
positive total weight, each category receives the amount times its weight over
the total weight, rounded to two decimals; and for every input the returned
key list equals the input key list. -/
theorem generate_auto_budget_positive :
    (∀ (a : ℚ) (m : List (String × ℚ)), 0 < a → 0 < (m.map Prod.snd).sum →
      generate_auto_budget (some a) m false 0 =
        m.map (fun p => (p.1, round2 (a * p.2 / (m.map Prod.snd).sum))))
    ∧ (∀ (a : Option ℚ) (m : List (String × ℚ)) (vm : Bool) (vp : ℚ),
      (generate_auto_budget a m vm vp).map Prod.fst = m.map Prod.fst) := by
  constructor
  · intro a m ha hs
    simp only [generate_auto_budget, not_le.mpr ha, if_false, not_le.mpr hs,
      Bool.false_eq_true, if_true]
    refine List.map_congr_left (fun p _ => ?_)
    rw [mul_div_assoc]
  · intro a m vm vp
    match a with
    | none => exact zeroAlloc_map_fst m
    | some a =>
      simp only [generate_auto_budget]
      split
      · exact zeroAlloc_map_fst m
      · split
        · exact zeroAlloc_map_fst m
        · simp [List.map_map, Function.comp]

/-- C3 witness: the theorem applied at amount 100 with weights 1 and 2, whose
sum 3 is not 100; the two shares are the rounded thirds of 100. -/
theorem generate_auto_budget_positive_witness :
    generate_auto_budget (some 100) [("A", 1), ("B", 2)] false 0 =
      [("A", 3333 / 100), ("B", 6667 / 100)] := by
  rw [generate_auto_budget_positive.1 100 [("A", 1), ("B", 2)] (by norm_num) (by norm_num)]
  norm_num [round2, bankersRound, Rat.floor_def, round_eq]

/-- C4: conservation of the allocation.  For a positive amount and a positive
total weight, the allocated values sum to the amount up to the two-decimal
rounding tolerance of 1/200 per category. -/
theorem generate_auto_budget_conservation (a : ℚ) (m : List (String × ℚ))
    (ha : 0 < a) (hs : 0 < (m.map Prod.snd).sum) :
    |((generate_auto_budget (some a) m false 0).map Prod.snd).sum - a| ≤
      m.length * (1 / 200) := by
  have hS : (m.map Prod.snd).sum ≠ 0 := ne_of_gt hs
  rw [generate_auto_budget_positive.1 a m ha hs]
  have hvals : ((m.map (fun p => (p.1, round2 (a * p.2 / (m.map Prod.snd).sum)))).map
      Prod.snd) = (m.map (fun p => a * p.2 / (m.map Prod.snd).sum)).map round2 := by
    simp [List.map_map, Function.comp]
  rw [hvals]
  have hlen : (m.map (fun p => a * p.2 / (m.map Prod.snd).sum)).length = m.length :=
    List.length_map _ _
  have hsum : (m.map (fun p => a * p.2 / (m.map Prod.snd).sum)).sum = a := by
    have hfun : (fun p : String × ℚ => a * p.2 / (m.map Prod.snd).sum) =
        (fun p : String × ℚ => (a / (m.map Prod.snd).sum) * p.2) := by
      funext p
      ring
    rw [hfun]
    have := List.sum_map_mul_left m Prod.snd (a / (m.map Prod.snd).sum)
    rw [this]
    field_simp
  calc |((m.map (fun p => a * p.2 / (m.map Prod.snd).sum)).map round2).sum - a|
      = |((m.map (fun p => a * p.2 / (m.map Prod.snd).sum)).map round2).sum -
          (m.map (fun p => a * p.2 / (m.map Prod.snd).sum)).sum| := by rw [hsum]
    _ ≤ (m.map (fun p => a * p.2 / (m.map Prod.snd).sum)).length * (1 / 200) :=
        abs_sum_map_round2_sub _
    _ = m.length * (1 / 200) := by rw [hlen]

/-- C4 witness: the theorem applied at amount 100 with weights 1 and 2. -/
theorem generate_auto_budget_conservation_witness :
    |((generate_auto_budget (some 100) [("A", 1), ("B", 2)] false 0).map Prod.snd).sum -
      100| ≤ ([("A", (1 : ℚ)), ("B", 2)] : List (String × ℚ)).length * (1 / 200) :=
  generate_auto_budget_conservation 100 [("A", 1), ("B", 2)] (by norm_num) (by norm_num)

/-- C5: vacancy scaling.  With vacancy enabled and a vacancy percentage in
[0, 100], allocating an amount equals allocating the amount already scaled by
(100 - pct) / 100 with vacancy disabled; with vacancy disabled the vacancy
percentage is ignored. -/
theorem generate_auto_budget_vacancy_scaling :
    (∀ (a : ℚ) (m : List (String × ℚ)) (vp : ℚ), 0 ≤ vp → vp ≤ 100 →
      generate_auto_budget (some a) m true vp =
        generate_auto_budget (some (a * (100 - vp) / 100)) m false 0)
    ∧ (∀ (a : Option ℚ) (m : List (String × ℚ)) (vp : ℚ),
      generate_auto_budget a m false vp = generate_auto_budget a m false 0) := by
  constructor
  · intro a m vp h0 h100
    have hfac : 0 ≤ (100 - vp) / 100 := by
      apply div_nonneg <;> linarith
    by_cases ha : a ≤ 0
    · have hb : a * (100 - vp) / 100 ≤ 0 := by
        rw [mul_div_assoc]
        exact mul_nonpos_of_nonpos_of_nonneg ha hfac
      simp [generate_auto_budget, ha, hb]
    · push_neg at ha
      have hb0 : 0 ≤ a * (100 - vp) / 100 := by
        rw [mul_div_assoc]
        exact mul_nonneg (le_of_lt ha) hfac
      by_cases hS : (m.map Prod.snd).sum ≤ 0
      · by_cases hb : a * (100 - vp) / 100 ≤ 0
        · simp [generate_auto_budget, not_le.mpr ha, hb, hS]
        · simp [generate_auto_budget, not_le.mpr ha, hb, hS]
      · by_cases hb : a * (100 - vp) / 100 ≤ 0
        · have hbz : a * (100 - vp) / 100 = 0 := le_antisymm hb hb0
          have hL : generate_auto_budget (some a) m true vp =
              m.map (fun p =>
                (p.1, round2 (a * (100 - vp) / 100 * (p.2 / (m.map Prod.snd).sum)))) := by
            simp [generate_auto_budget, not_le.mpr ha, hS]
          have hR : generate_auto_budget (some (a * (100 - vp) / 100)) m false 0 =
              zeroAlloc m := by
            simp [generate_auto_budget, hb]
          rw [hL, hR]
          unfold zeroAlloc
          refine List.map_congr_left (fun p _ => ?_)
          rw [hbz, zero_mul, round2_zero]
        · simp [generate_auto_budget, not_le.mpr ha, hb, hS]
  · intro a m vp
    match a with
    | none => rfl
    | some a => rfl

/-- C5 witness: the theorem applied at amount 100, one category, vacancy 50%. -/
theorem generate_auto_budget_vacancy_scaling_witness :
    generate_auto_budget (some 100) [("A", 1)] true 50 =
      generate_auto_budget (some (100 * (100 - 50) / 100)) [("A", 1)] false 0 :=
  generate_auto_budget_vacancy_scaling.1 100 [("A", 1)] 50 (by norm_num) (by norm_num)

/-- C6: uniform discount.  For every budget table and every reduction
percentage (no range restriction), the returned table has, row for row, every
per-deposit cell equal to the input cell coerced to a number (0 when missing
or non numeric) times (100 - reduction_pct) / 100, and Monthly_Total
recomputed as the sum of the row's four discounted amounts; the categories
are kept and the operation is total, so it never fails on malformed input. -/
theorem apply_vacancy_to_budget_spec :
    (∀ (df : List BRow) (vp : ℚ),
      (apply_vacancy_to_budget df vp).map (fun r => r.category) =
        df.map (fun r => r.category))
    ∧ (∀ (df : List BRow) (vp : ℚ) (i : ℕ),
      (apply_vacancy_to_budget df vp)[i]? =
        df[i]?.map (fun r =>
          { category := r.category
            checks := fun d => some (toNum (r.checks d) * ((100 - vp) / 100))
            monthlyTotal :=
              some (∑ d : Fin 4, toNum (r.checks d) * ((100 - vp) / 100)) })) := by
  constructor
  · intro df vp
    simp [apply_vacancy_to_budget, List.map_map, Function.comp]
  · intro df vp i
    simp [apply_vacancy_to_budget, List.getElem?_map]

/-- C7: discount at 0% is the identity on tables satisfying the data model
invariant that every per-deposit cell is numeric and every Monthly_Total is
the sum of the row's four per-deposit amounts. -/
theorem apply_vacancy_to_budget_zero_id (t : List BRow) (h : BudgetInvariant t) :
    apply_vacancy_to_budget t 0 = t := by
  induction t with
  | nil => rfl
  | cons r rs ih =>
    have hr := h r (List.mem_cons_self r rs)
    have hrs : BudgetInvariant rs := fun x hx => h x (List.mem_cons_of_mem _ hx)
    have htail := ih hrs
    simp only [apply_vacancy_to_budget, List.map_cons] at htail ⊢
    congr 1
    obtain ⟨h1, h2⟩ := hr
    refine BRow.ext rfl ?_ ?_
    · funext d
      obtain ⟨v, hv⟩ := Option.isSome_iff_exists.mp (h1 d)
      norm_num [toNum, hv]
    · rw [h2]
      norm_num

/-- C7 witness: the theorem applied to a concrete one-row table holding 100
in the first check cell. -/
theorem apply_vacancy_to_budget_zero_id_witness :
    BudgetInvariant [⟨"A", ![some 100, some 0, some 0, some 0], some 100⟩] ∧
      apply_vacancy_to_budget [⟨"A", ![some 100, some 0, some 0, some 0], some 100⟩] 0 =
        [⟨"A", ![some 100, some 0, some 0, some 0], some 100⟩] := by
  have hinv : BudgetInvariant [⟨"A", ![some 100, some 0, some 0, some 0], some 100⟩] := by
    intro r hr
    simp only [List.mem_singleton] at hr
    subst hr
    refine ⟨fun d => by fin_cases d <;> simp, ?_⟩
    norm_num [toNum, Fin.sum_univ_four]
  exact ⟨hinv, apply_vacancy_to_budget_zero_id _ hinv⟩

/-- C1: contract of the table filler under unique category names.  The total
effective weight ranges over exactly the categories of the table (0 for a
category absent from the allocation map); when it is nonpositive every row
gets all-zero check cells and a zero Monthly_Total; otherwise the rescaled
weights sum to exactly 100, each row holds, for each of the four deposits
independently, the vacancy-adjusted deposit times its normalized weight over
100 with Monthly_Total the sum of the row's four values, and for each deposit
the amounts across all rows sum to the whole adjusted deposit. -/
theorem auto_fill_budget_contract (df : List BRow) (ck : Fin 4 → ℚ)
    (apm : List (String × ℚ)) (vm : Bool) (vp : ℚ)
    (hnodup : (catsOf df).Nodup) :
    (totalPctOf apm df = ((catsOf df).map (effW apm)).sum)
    ∧ (totalPctOf apm df ≤ 0 →
        auto_fill_budget df ck apm vm vp = df.map (fun r =>
          { category := r.category
            checks := fun _ => some 0
            monthlyTotal := some 0 }))
    ∧ (0 < totalPctOf apm df →
        (((catsOf df).map (fun c => effW apm c * (100 / totalPctOf apm df))).sum = 100)
        ∧ auto_fill_budget df ck apm vm vp = df.map (fun r =>
            { category := r.category
              checks := fun d => some ((ck d * adjFactor vm vp) *
                (effW apm r.category * (100 / totalPctOf apm df)) / 100)
              monthlyTotal := some (∑ d : Fin 4, (ck d * adjFactor vm vp) *
                (effW apm r.category * (100 / totalPctOf apm df)) / 100) })
        ∧ ∀ d : Fin 4,
            ((auto_fill_budget df ck apm vm vp).map (fun r => toNum (r.checks d))).sum =
              ck d * adjFactor vm vp) := by
  have hded : (catsOf df).dedup = catsOf df := List.dedup_eq_self.mpr hnodup
  have hTeq : totalPctOf apm df = ((catsOf df).map (effW apm)).sum := by
    rw [totalPctOf, hded]
  refine ⟨hTeq, fun hT => by simp [auto_fill_budget, hT], fun hT => ?_⟩
  have hTne : totalPctOf apm df ≠ 0 := ne_of_gt hT
  have hbranch : auto_fill_budget df ck apm vm vp = df.map (fun r =>
      { category := r.category
        checks := fun d => some (ck d *
          (effW apm r.category * (100 / totalPctOf apm df) / 100) * adjFactor vm vp)
        monthlyTotal := some (∑ d : Fin 4, ck d *
          (effW apm r.category * (100 / totalPctOf apm df) / 100) * adjFactor vm vp) }) := by
    simp [auto_fill_budget, not_le.mpr hT]
  have hcat : (df.map (fun r => effW apm r.category)).sum = totalPctOf apm df := by
    rw [hTeq, catsOf, List.map_map]
    rfl
  refine ⟨?_, ?_, ?_⟩
  · rw [List.sum_map_mul_right, ← hTeq, mul_comm]
    exact div_mul_cancel₀ 100 hTne
  · rw [hbranch]
    refine List.map_congr_left (fun r _ => ?_)
    have hck : ∀ d : Fin 4, ck d *
        (effW apm r.category * (100 / totalPctOf apm df) / 100) * adjFactor vm vp =
        (ck d * adjFactor vm vp) * (effW apm r.category * (100 / totalPctOf apm df)) / 100 :=
      fun d => by ring
    exact BRow.ext rfl (funext fun d => congrArg some (hck d))
      (congrArg some (Finset.sum_congr rfl (fun d _ => hck d)))
  · intro d
    rw [hbranch, List.map_map]
    have hfun : ((fun r : BRow => toNum (r.checks d)) ∘ (fun r : BRow =>
        { category := r.category
          checks := fun d => some (ck d *
            (effW apm r.category * (100 / totalPctOf apm df) / 100) * adjFactor vm vp)
          monthlyTotal := some (∑ d : Fin 4, ck d *
            (effW apm r.category * (100 / totalPctOf apm df) / 100) * adjFactor vm vp) })) =
        (fun r : BRow =>
          (ck d * adjFactor vm vp / totalPctOf apm df) * effW apm r.category) := by
      funext r
      simp only [Function.comp, toNum, Option.getD_some]
      field_simp
      ring
    rw [hfun]
    rw [List.sum_map_mul_left df (fun r => effW apm r.category)
      (ck d * adjFactor vm vp / totalPctOf apm df)]
    rw [hcat]
    exact div_mul_cancel₀ _ hTne

lemma dedup_map_sum_eq (l : List String) (f : String → ℚ) :
    (l.dedup.map f).sum = ∑ c ∈ l.toFinset, f c := by
  rw [Finset.sum_list_map_count]
  have hfs : l.dedup.toFinset = l.toFinset := by
    ext a
    simp [List.mem_toFinset, List.mem_dedup]
  rw [hfs]
  refine Finset.sum_congr rfl (fun c hc => ?_)
  rw [List.count_dedup, if_pos (List.mem_toFinset.mp hc)]
  simp

lemma sum_dedup_lt_sum_of_dup (l : List String) (f : String → ℚ) (x : String)
    (hw : ∀ c ∈ l, 0 ≤ f c) (hdup : 2 ≤ l.count x) (hx : 0 < f x) :
    (l.dedup.map f).sum < (l.map f).sum := by
  rw [dedup_map_sum_eq, Finset.sum_list_map_count]
  have hxl : x ∈ l := List.count_pos_iff.mp (by omega)
  refine Finset.sum_lt_sum ?_ ⟨x, List.mem_toFinset.mpr hxl, ?_⟩
  · intro c hc
    have hcl : c ∈ l := List.mem_toFinset.mp hc
    have h1 : 1 ≤ l.count c := List.count_pos_iff.mpr hcl
    rw [nsmul_eq_mul]
    calc f c = 1 * f c := (one_mul _).symm
      _ ≤ (l.count c : ℚ) * f c := by
          apply mul_le_mul_of_nonneg_right _ (hw c hcl)
          exact_mod_cast h1
  · rw [nsmul_eq_mul]
    calc f x = 1 * f x := (one_mul _).symm
      _ < (l.count x : ℚ) * f x := by
          apply mul_lt_mul_of_pos_right _ hx
          exact_mod_cast (by omega : (1 : ℕ) < l.count x)

lemma auto_fill_budget_sum_eq (df : List BRow) (ck : Fin 4 → ℚ)
    (apm : List (String × ℚ)) (vm : Bool) (vp : ℚ) (d : Fin 4)
    (hT : 0 < totalPctOf apm df) :
    ((auto_fill_budget df ck apm vm vp).map (fun r => toNum (r.checks d))).sum =
      (ck d * adjFactor vm vp / totalPctOf apm df) * ((catsOf df).map (effW apm)).sum := by
  have hbranch : auto_fill_budget df ck apm vm vp = df.map (fun r =>
      { category := r.category
        checks := fun d => some (ck d *
          (effW apm r.category * (100 / totalPctOf apm df) / 100) * adjFactor vm vp)
        monthlyTotal := some (∑ d : Fin 4, ck d *
          (effW apm r.category * (100 / totalPctOf apm df) / 100) * adjFactor vm vp) }) := by
    simp [auto_fill_budget, not_le.mpr hT]
  rw [hbranch, List.map_map]
  have hfun : ((fun r : BRow => toNum (r.checks d)) ∘ (fun r : BRow =>
      { category := r.category
        checks := fun d => some (ck d *
          (effW apm r.category * (100 / totalPctOf apm df) / 100) * adjFactor vm vp)
        monthlyTotal := some (∑ d : Fin 4, ck d *
          (effW apm r.category * (100 / totalPctOf apm df) / 100) * adjFactor vm vp) })) =
      (fun r : BRow =>
        (ck d * adjFactor vm vp / totalPctOf apm df) * effW apm r.category) := by
    funext r
    simp only [Function.comp, toNum, Option.getD_some]
    field_simp
    ring
  rw [hfun]
  rw [List.sum_map_mul_left df (fun r => effW apm r.category)
    (ck d * adjFactor vm vp / totalPctOf apm df)]
  have hcat : (df.map (fun r => effW apm r.category)).sum =
      ((catsOf df).map (effW apm)).sum := by
    rw [catsOf, List.map_map]
    rfl
  rw [hcat]

/-- C10 (amended): duplicate categories over-allocate.  When the category
column has duplicates, the weight of a duplicated category enters the
normalization total only once while every duplicate row receives the full
normalized share; hence, for non-negative effective weights, a duplicated
category of positive weight, a positive deposit and a positive vacancy
multiplier, every row of the duplicated category holds the identical full
share and the per-deposit amounts across all rows sum to strictly more
than the adjusted deposit. -/
theorem auto_fill_budget_duplicate_overallocation (df : List BRow) (ck : Fin 4 → ℚ)
    (apm : List (String × ℚ)) (vm : Bool) (vp : ℚ) (x : String) (d : Fin 4)
    (hw : ∀ c ∈ catsOf df, 0 ≤ effW apm c)
    (hdup : 2 ≤ (catsOf df).count x)
    (hx : 0 < effW apm x)
    (hd : 0 < ck d)
    (hadj : 0 < adjFactor vm vp) :
    (∀ r ∈ auto_fill_budget df ck apm vm vp, r.category = x →
      r.checks d = some (ck d *
        (effW apm x * (100 / totalPctOf apm df) / 100) * adjFactor vm vp))
    ∧ ck d * adjFactor vm vp <
      ((auto_fill_budget df ck apm vm vp).map (fun r => toNum (r.checks d))).sum := by
  have hxl : x ∈ catsOf df := List.count_pos_iff.mp (by omega)
  have hT : 0 < totalPctOf apm df := by
    rw [totalPctOf, dedup_map_sum_eq]
    refine Finset.sum_pos' (fun c hc => hw c (List.mem_toFinset.mp hc))
      ⟨x, List.mem_toFinset.mpr hxl, hx⟩
  constructor
  · intro r hr hcat
    rw [auto_fill_budget_pos_eq df ck apm vm vp hT] at hr
    obtain ⟨r0, _, rfl⟩ := List.mem_map.mp hr
    simp only at hcat ⊢
    rw [hcat]
  rw [auto_fill_budget_sum_eq df ck apm vm vp d hT]
  have hlt : totalPctOf apm df < ((catsOf df).map (effW apm)).sum := by
    rw [totalPctOf]
    exact sum_dedup_lt_sum_of_dup (catsOf df) (effW apm) x hw hdup hx
  have hk : 0 < ck d * adjFactor vm vp / totalPctOf apm df :=
    div_pos (mul_pos hd hadj) hT
  calc ck d * adjFactor vm vp
      = (ck d * adjFactor vm vp / totalPctOf apm df) * totalPctOf apm df := by
        field_simp
    _ < (ck d * adjFactor vm vp / totalPctOf apm df) *
          ((catsOf df).map (effW apm)).sum := mul_lt_mul_of_pos_left hlt hk

/-- C1 witness: the theorem applied to a one-row table with weight 10 and
first deposit 1000, projected to conservation of the first deposit. -/
theorem auto_fill_budget_contract_witness :
    ((auto_fill_budget [⟨"A", fun _ => none, none⟩] ![1000, 0, 0, 0] [("A", 10)] false 0).map
      (fun r => toNum (r.checks 0))).sum = 1000 * adjFactor false 0 := by
  have hT : (0 : ℚ) < totalPctOf [("A", 10)] [⟨"A", fun _ => none, none⟩] := by
    simp only [totalPctOf, catsOf, List.map_cons, List.map_nil]
    rw [List.dedup_cons_of_not_mem (by simp), List.dedup_nil]
    norm_num [effW]
  have h := ((auto_fill_budget_contract [⟨"A", fun _ => none, none⟩] ![1000, 0, 0, 0]
    [("A", 10)] false 0 (by simp [catsOf])).2.2 hT).2.2 0
  simpa using h

/-- C8 counterexample: with weights 10 and 20 and a first deposit of 1000,
`auto_fill_budget` outputs the full-precision thirds 1000/3 and 2000/3, and
1000/3 is not a two-decimal value, so the table filler does not round its
output to two decimals. -/
theorem auto_fill_budget_unrounded_output :
    ((auto_fill_budget [⟨"A", fun _ => none, none⟩, ⟨"B", fun _ => none, none⟩]
        ![1000, 0, 0, 0] [("A", 10), ("B", 20)] false 0).map
      (fun r => toNum (r.checks 0))) = [1000 / 3, 2000 / 3] ∧
    round2 (1000 / 3) ≠ 1000 / 3 := by
  constructor
  · have hT : totalPctOf [("A", 10), ("B", 20)]
        [⟨"A", fun _ => none, none⟩, ⟨"B", fun _ => none, none⟩] = 30 := by
      simp only [totalPctOf, catsOf, List.map_cons, List.map_nil]
      rw [List.dedup_cons_of_not_mem (by simp), List.dedup_cons_of_not_mem (by simp),
        List.dedup_nil]
      simp [effW, List.lookup]
      norm_num
    rw [auto_fill_budget, hT]
    simp [effW, List.lookup, adjFactor, toNum]
    norm_num
  · norm_num [round2, bankersRound, Rat.floor_def, round_eq]

/-- C8 (amended): the allocator rounds.  Every amount in the mapping returned
by `generate_auto_budget` is a fixed point of two-decimal rounding; the table
filler `auto_fill_budget`, by contrast, emits full-precision values. -/
theorem generate_auto_budget_output_rounded (a : Option ℚ) (m : List (String × ℚ))
    (vm : Bool) (vp : ℚ) (p : String × ℚ)
    (hp : p ∈ generate_auto_budget a m vm vp) :
    round2 p.2 = p.2 := by
  have hz : ∀ q ∈ zeroAlloc m, round2 q.2 = q.2 := by
    intro q hq
    obtain ⟨r, _, rfl⟩ := List.mem_map.mp hq
    exact round2_zero
  match a with
  | none => exact hz p hp
  | some a0 =>
    simp only [generate_auto_budget] at hp
    split at hp
    · exact hz p hp
    · split at hp
      · exact hz p hp
      · obtain ⟨q, _, rfl⟩ := List.mem_map.mp hp
        exact round2_round2 _

/-- C8 witness: the amended theorem applied to the member ("A", 100) of a
concrete allocation. -/
theorem generate_auto_budget_output_rounded_witness :
    round2 (100 : ℚ) = 100 := by
  have heval : generate_auto_budget (some 100) [("A", 1)] false 0 = [("A", 100)] := by
    norm_num [generate_auto_budget, round2, bankersRound, Rat.floor_def, round_eq]
  have hmem : (("A", (100 : ℚ)) : String × ℚ) ∈
      generate_auto_budget (some 100) [("A", 1)] false 0 := by
    rw [heval]
    simp
  exact generate_auto_budget_output_rounded (some 100) [("A", 1)] false 0 ("A", 100) hmem

/-- C9 counterexample: filling a one-row table that holds 5 in every check
cell leaves the caller's frame holding the filled values (1000 in the first
check cell), not the original ones, so `auto_fill_budget` modifies the table
passed to it. -/
theorem auto_fill_budget_mutates_argument :
    auto_fill_budget_argAfter [⟨"A", ![some 5, some 5, some 5, some 5], some 20⟩]
      ![1000, 0, 0, 0] [("A", 10)] false 0 ≠
      [⟨"A", ![some 5, some 5, some 5, some 5], some 20⟩] := by
  intro h
  have hT : totalPctOf [("A", 10)] [⟨"A", ![some 5, some 5, some 5, some 5], some 20⟩] = 10 := by
    simp only [totalPctOf, catsOf, List.map_cons, List.map_nil]
    rw [List.dedup_cons_of_not_mem (by simp), List.dedup_nil]
    norm_num [effW]
  have h0 := congrArg (fun l => l.map (fun r : BRow => r.checks 0)) h
  rw [auto_fill_budget_argAfter, auto_fill_budget, hT] at h0
  norm_num [effW, adjFactor] at h0

/-- C9 (amended): frame effects of the engine.  `apply_vacancy_to_budget`
copies its argument and leaves it unchanged, while `auto_fill_budget` writes
in place: after a call the caller's frame holds the returned filled table
(which in general differs from the original, so callers pass a copy). -/
theorem engine_frame_effects :
    (∀ (df : List BRow) (vp : ℚ), apply_vacancy_to_budget_argAfter df vp = df)
    ∧ (∀ (df : List BRow) (ck : Fin 4 → ℚ) (apm : List (String × ℚ)) (vm : Bool) (vp : ℚ),
      auto_fill_budget_argAfter df ck apm vm vp =
        auto_fill_budget df ck apm vm vp) :=
  ⟨fun _ _ => rfl, fun _ _ _ _ _ => rfl⟩

/-- C10 counterexample: with the duplicated category "A" of positive weight
10, a positive first deposit of 1000 but vacancy enabled at 100%, every
output amount is 0, so the amounts sum exactly to the adjusted deposit 0 and
not to strictly more; the claim as stated fails at this input. -/
theorem auto_fill_budget_duplicate_vacancy_counterexample :
    2 ≤ (catsOf [⟨"A", fun _ => none, none⟩, ⟨"A", fun _ => none, none⟩]).count "A"
    ∧ 0 < effW [("A", 10)] "A"
    ∧ 0 < (![1000, 0, 0, 0] : Fin 4 → ℚ) 0
    ∧ ¬ ((![1000, 0, 0, 0] : Fin 4 → ℚ) 0 * adjFactor true 100 <
        ((auto_fill_budget [⟨"A", fun _ => none, none⟩, ⟨"A", fun _ => none, none⟩]
          ![1000, 0, 0, 0] [("A", 10)] true 100).map (fun r => toNum (r.checks 0))).sum) := by
  have hT : totalPctOf [("A", 10)]
      [⟨"A", fun _ => none, none⟩, ⟨"A", fun _ => none, none⟩] = 10 := by
    simp only [totalPctOf, catsOf, List.map_cons, List.map_nil]
    rw [List.dedup_cons_of_mem (by simp), List.dedup_cons_of_not_mem (by simp), List.dedup_nil]
    norm_num [effW]
  refine ⟨by decide, by norm_num [effW], by norm_num, ?_⟩
  have hsum : ((auto_fill_budget [⟨"A", fun _ => none, none⟩, ⟨"A", fun _ => none, none⟩]
      ![1000, 0, 0, 0] [("A", 10)] true 100).map (fun r => toNum (r.checks 0))).sum = 0 := by
    rw [auto_fill_budget, hT]
    norm_num [adjFactor, toNum]
  rw [hsum]
  norm_num [adjFactor]

/-- C10 witness: the amended theorem applied to a table with the category "A"
twice, weight 10, first deposit 1000 and vacancy off. -/
theorem auto_fill_budget_duplicate_overallocation_witness :
    (![1000, 0, 0, 0] : Fin 4 → ℚ) 0 * adjFactor false 0 <
      ((auto_fill_budget [⟨"A", fun _ => none, none⟩, ⟨"A", fun _ => none, none⟩]
        ![1000, 0, 0, 0] [("A", 10)] false 0).map (fun r => toNum (r.checks 0))).sum := by
  refine (auto_fill_budget_duplicate_overallocation
    [⟨"A", fun _ => none, none⟩, ⟨"A", fun _ => none, none⟩] ![1000, 0, 0, 0]
    [("A", 10)] false 0 "A" 0 ?_ (by decide) (by norm_num [effW]) (by norm_num)
    (by norm_num [adjFactor])).2
  intro c hc
  simp [catsOf] at hc
  subst hc
  norm_num [effW]
